import Mathlib

/-!
Shallow embedding of the two batch-processing scripts of the
LandslideDebrisFlowAreaDetection repository:

* `AdjustGray_Uetsu.py` — radiometric normalization of grayscale aerial
  photographs against the statistics of a reference corpus, followed by
  low-value suppression;
* `EnsembleSeg.py` — decoding of a per-pixel class-probability tensor into a
  two-color segmentation mask, plus the surrounding batch pipeline.

Images are flat lists of 8-bit samples (`List Nat`), numeric work is done in
exact rational arithmetic (`ℚ`) in place of IEEE floats, paths are lists of
characters, and the external collaborators (OpenCV codecs, the model) are
parameters of the functions that call them.  The per-file loops of the two
pipelines are embedded as event traces.
-/

namespace LSD

/-- A file path, as a list of characters (Python `str`). -/
abbrev FPath := List Char

/-- A grayscale image as the flat list of its 8-bit samples (every elementwise
NumPy operation of the source acts sample-by-sample, so the spatial layout is
irrelevant to the embedded functions). -/
abbrev GrayImg := List Nat

/-! ### Python path helpers (`os.path`, POSIX flavor)

`WriteImg`, `Adjust` and `RunInf` use `os.path.splitext`, `os.path.basename`
and `os.path.join`; these are the CPython `posixpath` algorithms. -/

/-- Python `str.rfind`: index of the last occurrence of `c` in `s`, `-1` when
absent. -/
def rfindL (s : FPath) (c : Char) : Int :=
  match s.reverse.findIdx? (fun a => a = c) with
  | none => -1
  | some k => (s.length : Int) - 1 - (k : Int)

/-- Python `os.path.splitext` (posix): split off the extension at the last dot that
comes after the last `/`, unless every character between that `/` and the dot
is itself a dot (so `.bashrc` keeps no extension). -/
def splitextL (p : FPath) : FPath × FPath :=
  let sepIndex := rfindL p '/'
  let dotIndex := rfindL p '.'
  if sepIndex < dotIndex then
    let fnameIndex := sepIndex + 1
    if ((p.drop fnameIndex.toNat).take (dotIndex - fnameIndex).toNat).any
        (fun a => a ≠ '.') then
      (p.take dotIndex.toNat, p.drop dotIndex.toNat)
    else (p, [])
  else (p, [])

/-- Python `os.path.basename` (posix): everything after the last `/`. -/
def basenameL (p : FPath) : FPath := p.drop (rfindL p '/' + 1).toNat

/-- The expression `os.path.splitext(os.path.basename(p))[0]`, the `BaseFilename` computed by
both pipelines. -/
def stemL (p : FPath) : FPath := (splitextL (basenameL p)).1

/-- Python `os.path.join(a, b)` (posix, two arguments). -/
def joinPathL (a b : FPath) : FPath :=
  if b.head? = some '/' then b
  else if a = [] ∨ a.getLast? = some '/' then a ++ b
  else a ++ '/' :: b

/-! ### `AdjustGray_Uetsu.py` numeric core -/

/-- The `1e-8` guard of `AdjustImage`, as an exact rational. -/
def epsQ : ℚ := 1 / 100000000

/-- Line `TestImgData.astype(np.float32)`: promote the 8-bit samples to the exact
numeric field standing in for the floats. -/
def toFloatQ (img : GrayImg) : List ℚ := img.map (fun (x : Nat) => (x : ℚ))

/-- The elementwise affine transform of `AdjustImage`, line
`(TestImgData - TestMean) / (TestStd + 1e-8) * TrainStd + TrainMean`. -/
def affineQ (l : List ℚ) (TestMean TestStd TrainMean TrainStd : ℚ) : List ℚ :=
  l.map (fun x => (x - TestMean) / (TestStd + epsQ) * TrainStd + TrainMean)

/-- NumPy `np.clip(a, lo, hi)` elementwise: `min (max x lo) hi`. -/
def npClipL (l : List ℚ) (lo hi : ℚ) : List ℚ :=
  l.map (fun x => min (max x lo) hi)

/-- Conversion `.astype(np.uint8)` on a value the preceding `np.clip` has put in
`[0, 255]`: float-to-unsigned narrowing truncates toward zero, which on a
nonnegative value is the floor.  (The source only ever applies this after the
clip, so the wrap-around of out-of-range casts never arises.) -/
def astypeUint8 (q : ℚ) : Nat := (⌊q⌋).toNat

/-- Function `AdjustImage(TestImgData, TestMean, TestStd, TrainMean, TrainStd)`:
promote to float, apply the affine transform, clip to `[0, 255]`, narrow back
to `uint8`. -/
def AdjustImage (TestImgData : GrayImg) (TestMean TestStd TrainMean TrainStd : ℚ) :
    GrayImg :=
  (npClipL (affineQ (toFloatQ TestImgData) TestMean TestStd TrainMean TrainStd)
      0 255).map astypeUint8

/-- Truncation toward zero of a rational, the rounding of a C `float → uint8`
narrowing before the modular wrap (per-sample statement of the spec's
"truncates toward zero"). -/
def truncTowardZero (q : ℚ) : Int := if 0 ≤ q then ⌊q⌋ else -⌊-q⌋

/-- Function `DrawBlackBasedThreshold(ImgData, Threshold)`: `Result = ImgData.copy();
Result[Result < Threshold] = 0`.  A sample below the threshold becomes 0,
every other sample is kept; the input array is copied, not mutated (the
embedding is pure, matching the `.copy()`). -/
def DrawBlackBasedThreshold (ImgData : GrayImg) (Threshold : Int) : GrayImg :=
  ImgData.map (fun (x : Nat) => if (x : Int) < Threshold then (0 : Nat) else x)

/-! ### `GetImgMeanStd` and the empty-corpus behavior -/

/-- NumPy `np.mean` of a list of floats.  On an empty list NumPy emits a
`RuntimeWarning` and yields `NaN` — it does not raise — so the empty case is
modelled as `none` (the NaN marker) and the nonempty case as the exact
arithmetic mean. -/
def npMeanQ (xs : List ℚ) : Option ℚ :=
  if xs.isEmpty then none else some (xs.sum / (xs.length : ℚ))

/-- Function `CalcMeanStd(ImgPath)` restricted to the statistics it returns:
`cv2.meanStdDev` over the decoded image is an external computation, given as
the parameter `statsOf` (per-file mean and standard deviation). -/
def CalcMeanStd (statsOf : FPath → ℚ × ℚ) (p : FPath) : ℚ × ℚ := statsOf p

/-- Function `GetImgMeanStd(ImgDir, ImageExtension)`: over the glob listing
`globList`, collect each file's mean and std and return `np.mean` of each
list.  There is no emptiness guard in the source: an empty listing reaches
`np.mean([])` and yields the NaN pair. -/
def GetImgMeanStd (statsOf : FPath → ℚ × ℚ) (globList : List FPath) :
    Option ℚ × Option ℚ :=
  let MeanList := globList.map (fun p => (CalcMeanStd statsOf p).1)
  let StdList := globList.map (fun p => (CalcMeanStd statsOf p).2)
  (npMeanQ MeanList, npMeanQ StdList)

/-! ### `ReadImg` / `WriteImg` -/

/-- Function `ReadImg(Path)`: read the file's bytes and return `cv2.imdecode(Data,
...)` unchecked.  `cv2.imdecode` is external: it yields `some img` on a
decodable buffer and `None` (here `none`) on undecodable bytes, raising
nothing; the source passes its result straight through. -/
def ReadImg (imdecode : List Nat → Option GrayImg) (fileBytes : List Nat) :
    Option GrayImg :=
  imdecode fileBytes

/-- A filesystem visible to `WriteImg`: each path maps to the bytes stored
there, if any. -/
abbrev FileSys := FPath → Option (List Nat)

/-- The exception `cv2.imencode` raises (`cv2.error`), standing for the
spec's `EncodeError`: no encoder exists for the extension, or the array shape
is invalid for the chosen format. -/
inductive EncodeError where
  /-- No encoder is registered for the path's extension. -/
  | unsupportedExtension
  /-- The array's shape or dtype is invalid for the chosen format. -/
  | invalidShape
deriving DecidableEq

/-- Function `WriteImg(Path, ImgData)`: take the path's extension, call
`cv2.imencode(Ext, ImgData)` — an external function returning a
`(retval, buffer)` pair and raising `cv2.error` (an `EncodeError`, modelled as
the `.error` branch) when the extension has no encoder or the array shape is
invalid for the format — then open the path and write the buffer.  The
`open` happens only after `imencode` returns, so when `imencode` raises the
filesystem is returned untouched; on success the source ignores `retval`
(the `_` pattern) and writes the buffer. -/
def WriteImg (imencode : FPath → GrayImg → Except EncodeError (Bool × List Nat))
    (fs : FileSys) (Path : FPath) (ImgData : GrayImg) :
    Except EncodeError Unit × FileSys :=
  match imencode (splitextL Path).2 ImgData with
  | .error e => (.error e, fs)
  | .ok (_, buf) => (.ok (), fun q => if q = Path then some buf else fs q)

/-! ### `EnsembleSeg.py`: `ConvertYtoSegImg` -/

/-- One output pixel, a `(B, G, R)` triple of 8-bit values. -/
abbrev RGB := Nat × Nat × Nat

/-- The white canvas value `np.ones(...) * 255`. -/
def whitePx : RGB := (255, 255, 255)

/-- The bare-ground value `[0, 0, 0]`. -/
def blackPx : RGB := (0, 0, 0)

/-- TensorFlow `tf.argmax` over one pixel's class-probability vector: the index of the
first (lowest-index) occurrence of the maximum. -/
def tfArgmax : List ℚ → Nat
  | [] => 0
  | x :: xs =>
    match xs[tfArgmax xs]? with
    | none => 0
    | some m => if x < m then tfArgmax xs + 1 else 0

/-- Line `tf.argmax(PredOneHot, axis=-1)` over the whole tensor. -/
def argmaxGrid (pred : List (List (List ℚ))) : List (List Nat) :=
  pred.map (fun row => row.map tfArgmax)

/-- Line `mask = (PredOneHot == 1)` after the argmax. -/
def maskGrid (am : List (List Nat)) : List (List Bool) :=
  am.map (fun row => row.map (fun k => k == 1))

/-- Line `np.ones((H, W, 3), dtype=np.uint8) * 255`: the all-white canvas. -/
def whiteCanvas (h w : Nat) : List (List RGB) :=
  List.replicate h (List.replicate w whitePx)

/-- Line `PredData[mask] = [0, 0, 0]`: pixels selected by the mask become black,
the rest keep the canvas value. -/
def assignMask (canvas : List (List RGB)) (mask : List (List Bool)) :
    List (List RGB) :=
  List.zipWith (fun crow mrow =>
    List.zipWith (fun px b => if b then blackPx else px) crow mrow) canvas mask

/-- Function `ConvertYtoSegImg(PredOneHot, ImgSize)` with `ImgSize = (h, w, 3)`:
argmax over the last axis, white canvas, black where the argmax equals 1. -/
def ConvertYtoSegImg (pred : List (List (List ℚ))) (h w : Nat) :
    List (List RGB) :=
  assignMask (whiteCanvas h w) (maskGrid (argmaxGrid pred))

/-! ### Pipeline event traces

The per-file loops of `Adjust` (AdjustGray) and `Evaluation`/`RunInf`
(EnsembleSeg) are embedded as traces of read / infer / write events over the
glob listing, indexed by the position of the input file in that listing. -/

/-- One observable step of a pipeline run. -/
inductive Ev where
  /-- A read of the `j`-th reference (training) image inside `GetImgMeanStd`. -/
  | readTrain (j : Nat)
  /-- A read of the `i`-th test image. -/
  | readT (i : Nat)
  /-- The model inference on the `i`-th test image. -/
  | inferT (i : Nat)
  /-- The write of the `i`-th test image's output to `path`. -/
  | writeT (i : Nat) (path : FPath)
deriving DecidableEq

/-- The test-image index an event processes, `none` for reference reads. -/
def evIdx? : Ev → Option Nat
  | .readTrain _ => none
  | .readT i => some i
  | .inferT i => some i
  | .writeT i _ => some i

/-- A `for` loop over the listed files, file `i` contributing the events
`body i path`. -/
def loopTrace (body : Nat → FPath → List Ev) : Nat → List FPath → List Ev
  | _, [] => []
  | i, p :: ps => body i p ++ loopTrace body (i + 1) ps

/-- The output path of the normalization pipeline for input `p`:
`os.path.join(OutputDir, BaseFilename + '.png')`. -/
def pngName (outDir p : FPath) : FPath :=
  joinPathL outDir (stemL p ++ ".png".data)

/-- The output path of the segmentation pipeline for input `p`:
`os.path.join(OutputDir, BaseFilename + '_Seg.jpg')`. -/
def segName (outDir p : FPath) : FPath :=
  joinPathL outDir (stemL p ++ "_Seg.jpg".data)

/-- The trace of `Adjust(TrainImgDir, TestImgDir, ...)`: `GetImgMeanStd`
reads every reference image, then one loop per test file reads it, transforms
it (pure, no event) and writes its output. -/
def adjustTrace (trainN : Nat) (testPaths : List FPath) (outDir : FPath) :
    List Ev :=
  (List.range trainN).map Ev.readTrain ++
    loopTrace (fun i p => [Ev.readT i, Ev.writeT i (pngName outDir p)]) 0
      testPaths

/-- Python's `list.sort()` on paths: stable insertion into lexicographic
order by character code. -/
def lexLe : FPath → FPath → Bool
  | [], _ => true
  | _ :: _, [] => false
  | a :: as, b :: bs =>
    if a.val < b.val then true
    else if b.val < a.val then false
    else lexLe as bs

/-- Insert a path into an already sorted list (stable: equal keys keep the
existing elements first). -/
def insertPath (p : FPath) : List FPath → List FPath
  | [] => [p]
  | q :: qs => if lexLe p q then p :: q :: qs else q :: insertPath p qs

/-- Python `TestImgPathList.sort()`. -/
def pySort (l : List FPath) : List FPath := l.foldr insertPath []

/-- The trace of `Evaluation(ModelPath, TestImgPathList, ImgSize)`: one loop
over every file, reading it and running the model, collecting all
likelihoods before returning. -/
def evaluationTrace (paths : List FPath) : List Ev :=
  loopTrace (fun i _ => [Ev.readT i, Ev.inferT i]) 0 paths

/-- The write-phase loop of `RunInf`: each file is read again, its likelihood
converted and resized (pure), and the mask written. -/
def runInfWriteTrace (paths : List FPath) (outDir : FPath) : List Ev :=
  loopTrace (fun i p => [Ev.readT i, Ev.writeT i (segName outDir p)]) 0 paths

/-- The trace of `RunInf(TestImgDir, ...)`: sort the glob listing, run
`Evaluation` over every file, then the write loop over every file. -/
def runInfTrace (testPaths : List FPath) (outDir : FPath) : List Ev :=
  evaluationTrace (pySort testPaths) ++
    runInfWriteTrace (pySort testPaths) outDir

/-- Property that each input image is fully processed before the next begins: along the
trace, the indices of the test images being touched never decrease, so all of
image `i`'s events precede all of image `j`'s when `i < j`. -/
def seqPerImage (tr : List Ev) : Prop :=
  List.Sorted (· ≤ ·) (tr.filterMap evIdx?)

/-! ## Theorems -/

/-- C1: `GetImgMeanStd` over a directory whose listing yields zero matching
files does NOT raise any `EmptyCorpusError` — no such guard (and no such
exception class) exists in the source — and instead returns the NaN pair that
`np.mean` produces on empty lists, for every choice of per-file statistics.
This refutes the claim's guarantee and exhibits the divergence. -/
theorem GetImgMeanStd_empty_returns_nan (statsOf : FPath → ℚ × ℚ) :
    GetImgMeanStd statsOf [] = (none, none) := rfl

/-- C7: `ReadImg` passes `cv2.imdecode`'s result through unchecked, so on
byte content the decoder cannot decode (where `cv2.imdecode` yields `None`
rather than raising) `ReadImg` returns that non-image `None` value and raises
no `DecodeError` — the divergence refuting the claim. -/
theorem ReadImg_undecodable_returns_none (imdecode : List Nat → Option GrayImg)
    (fileBytes : List Nat) (h : imdecode fileBytes = none) :
    ReadImg imdecode fileBytes = none := h

/-- Witness for `ReadImg_undecodable_returns_none` at a concrete undecodable
input (a decoder rejecting everything, empty byte content). -/
theorem ReadImg_undecodable_returns_none_witness :
    ((fun _ : List Nat => (none : Option GrayImg)) [] = none) ∧
      ReadImg (fun _ => none) [] = none :=
  ⟨rfl, ReadImg_undecodable_returns_none (fun _ => none) [] rfl⟩

/-- C8: when `cv2.imencode` fails — it raises `cv2.error` (the `EncodeError`)
exactly when the path's extension has no encoder or the array shape is
invalid for that format — `WriteImg` propagates the error and the filesystem
is returned exactly as it was: the `open(Path, 'wb')` only happens after a
successful encode, so no file content is written on failure. -/
theorem WriteImg_error_no_side_effect
    (imencode : FPath → GrayImg → Except EncodeError (Bool × List Nat))
    (fs : FileSys) (Path : FPath) (ImgData : GrayImg) (e : EncodeError)
    (h : imencode (splitextL Path).2 ImgData = .error e) :
    WriteImg imencode fs Path ImgData = (.error e, fs) := by
  unfold WriteImg
  rw [h]

/-- Witness for `WriteImg_error_no_side_effect`: an encoder rejecting the
extension of `img.xyz`, an empty filesystem, an empty image. -/
theorem WriteImg_error_no_side_effect_witness :
    ((fun _ : FPath => fun _ : GrayImg =>
        (Except.error EncodeError.unsupportedExtension :
          Except EncodeError (Bool × List Nat)))
      (splitextL "img.xyz".data).2 [] = .error .unsupportedExtension) ∧
    WriteImg (fun _ _ => .error .unsupportedExtension) (fun _ => none)
        "img.xyz".data [] =
      (.error .unsupportedExtension, fun _ => none) :=
  ⟨rfl, WriteImg_error_no_side_effect _ _ _ _ _ rfl⟩

/-- C5: every sample of `DrawBlackBasedThreshold ImgData Threshold` is either
`0` or the corresponding sample of `ImgData` (never any other value), and a
sample at least the threshold is left unchanged.  Non-mutation of the input
holds by the `.copy()` in the source, reflected here by the function being
pure. -/
theorem DrawBlackBasedThreshold_samples (ImgData : GrayImg) (Threshold : Int)
    (i x : Nat) (hx : ImgData[i]? = some x) :
    ((DrawBlackBasedThreshold ImgData Threshold)[i]? = some 0 ∨
      (DrawBlackBasedThreshold ImgData Threshold)[i]? = some x) ∧
    (Threshold ≤ (x : Int) →
      (DrawBlackBasedThreshold ImgData Threshold)[i]? = some x) := by
  unfold DrawBlackBasedThreshold
  rw [List.getElem?_map, hx]
  constructor
  · by_cases hlt : (x : Int) < Threshold
    · left
      simp [hlt]
    · right
      simp [hlt]
  · intro ht
    have hlt : ¬ (x : Int) < Threshold := not_lt.mpr ht
    simp [hlt]

/-- Witness for `DrawBlackBasedThreshold_samples`: image `[5]`, threshold
`3`, sample index `0`. -/
theorem DrawBlackBasedThreshold_samples_witness :
    (([5] : GrayImg)[0]? = some 5) ∧
    (((DrawBlackBasedThreshold [5] 3)[0]? = some 0 ∨
        (DrawBlackBasedThreshold [5] 3)[0]? = some 5) ∧
      ((3 : Int) ≤ ((5 : Nat) : Int) →
        (DrawBlackBasedThreshold [5] 3)[0]? = some 5)) :=
  ⟨rfl, DrawBlackBasedThreshold_samples [5] 3 0 5 rfl⟩

/-- C10: `DrawBlackBasedThreshold` is idempotent: suppressing twice at the
same threshold equals suppressing once, for every image and every threshold
(a suppressed sample is `0`, and suppressing `0` again yields `0` whether or
not `0` is below the threshold). -/
theorem DrawBlackBasedThreshold_idem (ImgData : GrayImg) (Threshold : Int) :
    DrawBlackBasedThreshold (DrawBlackBasedThreshold ImgData Threshold)
        Threshold =
      DrawBlackBasedThreshold ImgData Threshold := by
  unfold DrawBlackBasedThreshold
  rw [List.map_map]
  refine List.map_congr_left (fun a _ => ?_)
  by_cases hlt : (a : Int) < Threshold
  · simp [Function.comp, hlt]
  · simp [Function.comp, hlt]

/-- C2: for every input image and all finite statistics with a nonnegative
source standard deviation (the `CorpusStatistics` invariant, which includes
`TestStd = 0` — the `1e-8` term keeps the divisor positive), `AdjustImage`
returns an image of the same size (no exception, no undefined sample) and
every output sample lies in `[0, 255]` (the lower bound holds because samples
are unsigned). -/
theorem AdjustImage_range (TestImgData : GrayImg)
    (TestMean TestStd TrainMean TrainStd : ℚ) (hstd : 0 ≤ TestStd) :
    (AdjustImage TestImgData TestMean TestStd TrainMean TrainStd).length =
      TestImgData.length ∧
    ∀ y ∈ AdjustImage TestImgData TestMean TestStd TrainMean TrainStd,
      y ≤ 255 := by
  constructor
  · unfold AdjustImage npClipL affineQ toFloatQ
    rw [List.length_map, List.length_map, List.length_map, List.length_map]
  · intro y hy
    unfold AdjustImage npClipL affineQ toFloatQ at hy
    simp only [List.mem_map] at hy
    obtain ⟨q, ⟨v, ⟨x, hx, rfl⟩, rfl⟩, rfl⟩ := hy
    unfold astypeUint8
    have h1 : (min (max (((x : ℚ) - TestMean) / (TestStd + epsQ) * TrainStd
        + TrainMean) 0) 255 : ℚ) ≤ 255 := min_le_right _ _
    have h2 : (⌊(min (max (((x : ℚ) - TestMean) / (TestStd + epsQ) * TrainStd
        + TrainMean) 0) 255 : ℚ)⌋ : Int) ≤ 255 := by
      calc _ ≤ ⌊(255 : ℚ)⌋ := Int.floor_le_floor h1
        _ = 255 := by norm_num
    exact Int.toNat_le.mpr (by exact_mod_cast h2)

/-- Witness for `AdjustImage_range`: a uniform image with source standard
deviation exactly `0`. -/
theorem AdjustImage_range_witness :
    ((0 : ℚ) ≤ 0) ∧
    ((AdjustImage [50] 50 0 100 10).length = ([50] : GrayImg).length ∧
      ∀ y ∈ AdjustImage [50] 50 0 100 10, y ≤ 255) :=
  ⟨le_refl 0, AdjustImage_range [50] 50 0 100 10 (le_refl 0)⟩

/-- C3: each output sample of `AdjustImage` is exactly the affine transform
`(x - TestMean) / (TestStd + 1e-8) * TrainStd + TrainMean` of the input
sample, clamped to `[0, 255]` and then truncated toward zero (no rounding) to
an 8-bit unsigned sample. -/
theorem AdjustImage_sample_formula (TestImgData : GrayImg)
    (TestMean TestStd TrainMean TrainStd : ℚ) (i x : Nat)
    (hx : TestImgData[i]? = some x) :
    (AdjustImage TestImgData TestMean TestStd TrainMean TrainStd)[i]? =
      some ((truncTowardZero
        (min (max (((x : ℚ) - TestMean) / (TestStd + epsQ) * TrainStd
          + TrainMean) 0) 255)).toNat) := by
  unfold AdjustImage npClipL affineQ toFloatQ
  rw [List.getElem?_map, List.getElem?_map, List.getElem?_map,
    List.getElem?_map, hx]
  simp only [Option.map_some']
  have hq0 : (0 : ℚ) ≤ min (max (((x : ℚ) - TestMean) / (TestStd + epsQ)
      * TrainStd + TrainMean) 0) 255 :=
    le_min (le_max_right _ _) (by norm_num)
  unfold astypeUint8 truncTowardZero
  rw [if_pos hq0]

/-- Witness for `AdjustImage_sample_formula`: sample `100`, source stats
`(50, 10)`, target stats `(100, 20)`. -/
theorem AdjustImage_sample_formula_witness :
    (([100] : GrayImg)[0]? = some 100) ∧
    (AdjustImage [100] 50 10 100 20)[0]? =
      some ((truncTowardZero
        (min (max ((((100 : Nat) : ℚ) - 50) / (10 + epsQ) * 20 + 100) 0)
          255)).toNat) :=
  ⟨rfl, AdjustImage_sample_formula [100] 50 10 100 20 0 100 rfl⟩

/-- Characterization of `tfArgmax` on a nonempty probability vector: it is a
valid index, its value is a maximum of the vector, and every earlier index
holds a strictly smaller value (so it is the lowest index attaining the
maximum). -/
lemma tfArgmax_spec (xs : List ℚ) (hne : xs ≠ []) :
    ∃ v, xs[tfArgmax xs]? = some v ∧ (∀ y ∈ xs, y ≤ v) ∧
      ∀ m, m < tfArgmax xs → ∀ y, xs[m]? = some y → y < v := by
  induction xs with
  | nil => exact absurd rfl hne
  | cons x xs ih =>
    by_cases hxs : xs = []
    · subst hxs
      refine ⟨x, by simp [tfArgmax], by simp, ?_⟩
      intro m hm y hy
      simp [tfArgmax] at hm
    · obtain ⟨v, hv, hmax, hfirst⟩ := ih hxs
      by_cases hlt : x < v
      · have hres : tfArgmax (x :: xs) = tfArgmax xs + 1 := by
          rw [tfArgmax, hv]
          simp [hlt]
        refine ⟨v, ?_, ?_, ?_⟩
        · rw [hres, List.getElem?_cons_succ]
          exact hv
        · intro y hy
          rcases List.mem_cons.mp hy with rfl | hy
          · exact le_of_lt hlt
          · exact hmax y hy
        · intro m hm y hy
          rw [hres] at hm
          cases m with
          | zero =>
            rw [List.getElem?_cons_zero] at hy
            exact Option.some.inj hy ▸ hlt
          | succ m =>
            rw [List.getElem?_cons_succ] at hy
            exact hfirst m (by omega) y hy
      · have hres : tfArgmax (x :: xs) = 0 := by
          rw [tfArgmax, hv]
          simp [hlt]
        refine ⟨x, by rw [hres, List.getElem?_cons_zero], ?_, ?_⟩
        · intro y hy
          rcases List.mem_cons.mp hy with rfl | hy
          · exact le_refl _
          · exact le_trans (hmax y hy) (not_lt.mp hlt)
        · intro m hm y hy
          rw [hres] at hm
          omega

/-- On a vector with at least two classes, `tfArgmax` selects index 1 exactly
when the class-1 probability is a maximum of the vector and strictly exceeds
the class-0 probability — that is, exactly when the lowest index attaining
the maximum is 1. -/
lemma tfArgmax_eq_one_iff (xs : List ℚ) (a b : ℚ)
    (ha : xs[0]? = some a) (hb : xs[1]? = some b) :
    tfArgmax xs = 1 ↔ ((∀ y ∈ xs, y ≤ b) ∧ a < b) := by
  have hne : xs ≠ [] := by
    intro h
    rw [h] at ha
    simp at ha
  obtain ⟨v, hv, hmax, hfirst⟩ := tfArgmax_spec xs hne
  constructor
  · intro h1
    rw [h1] at hv hfirst
    have hvb : v = b := by
      rw [hv] at hb
      exact Option.some.inj hb
    subst hvb
    exact ⟨hmax, hfirst 0 (by omega) a ha⟩
  · rintro ⟨hbmax, hab⟩
    have hvmem : v ∈ xs := List.mem_iff_getElem?.mpr ⟨_, hv⟩
    have hbmem : b ∈ xs := List.mem_iff_getElem?.mpr ⟨_, hb⟩
    have hvb : v = b := le_antisymm (hbmax v hvmem) (hmax b hbmem)
    rcases Nat.lt_trichotomy (tfArgmax xs) 1 with h | h | h
    · exfalso
      have h0 : tfArgmax xs = 0 := by omega
      rw [h0] at hv
      have hva : v = a := by
        rw [hv] at ha
        exact Option.some.inj ha
      rw [hva] at hvb
      rw [hvb] at hab
      exact lt_irrefl b hab
    · exact h
    · exfalso
      have := hfirst 1 h b hb
      rw [hvb] at this
      exact lt_irrefl b this

/-- Access into a `zipWith`: the entry at `i` is the function applied to the
two entries at `i`, when both exist. -/
lemma getElem?_zipWith_eq_some {α β γ : Type} (f : α → β → γ)
    (l₁ : List α) (l₂ : List β) (i : Nat) (a : α) (b : β)
    (h₁ : l₁[i]? = some a) (h₂ : l₂[i]? = some b) :
    (List.zipWith f l₁ l₂)[i]? = some (f a b) := by
  rw [List.getElem?_zipWith, h₁, h₂]

/-- C4: for every probability tensor and every pixel that carries at least
two class probabilities, the decoded pixel of `ConvertYtoSegImg` is
`(0,0,0)` exactly when the lowest class index attaining that pixel's maximum
probability equals 1 (class-1 probability is a maximum and strictly exceeds
the class-0 probability), and is `(255,255,255)` otherwise; together with the
output's `h × w` shape this means no pixel value other than these two ever
occurs in the output. -/
theorem ConvertYtoSegImg_colors (pred : List (List (List ℚ))) (h w : Nat)
    (i j : Nat) (row : List (List ℚ)) (probs : List ℚ) (a b : ℚ)
    (hh : pred.length = h) (hw : ∀ r ∈ pred, r.length = w)
    (hr : pred[i]? = some row) (hp : row[j]? = some probs)
    (ha : probs[0]? = some a) (hb : probs[1]? = some b) :
    ∃ outRow px,
      (ConvertYtoSegImg pred h w).length = h ∧
      (ConvertYtoSegImg pred h w)[i]? = some outRow ∧
      outRow.length = w ∧
      outRow[j]? = some px ∧
      (px = blackPx ↔ ((∀ y ∈ probs, y ≤ b) ∧ a < b)) ∧
      (px = blackPx ∨ px = whitePx) := by
  have hi : i < h := by
    have := (List.getElem?_eq_some_iff.mp hr).1
    omega
  have hrow : row ∈ pred := List.mem_iff_getElem?.mpr ⟨_, hr⟩
  have hj : j < w := by
    have := (List.getElem?_eq_some_iff.mp hp).1
    rw [hw row hrow] at this
    exact this
  have hcanvas : (whiteCanvas h w)[i]? = some (List.replicate w whitePx) := by
    rw [whiteCanvas, List.getElem?_replicate, if_pos hi]
  have hmask : (maskGrid (argmaxGrid pred))[i]? =
      some ((row.map tfArgmax).map (fun k => k == 1)) := by
    rw [maskGrid, argmaxGrid, List.getElem?_map, List.getElem?_map, hr]
    rfl
  have hout : (ConvertYtoSegImg pred h w)[i]? =
      some (List.zipWith (fun px b => if b then blackPx else px)
        (List.replicate w whitePx) ((row.map tfArgmax).map (fun k => k == 1))) := by
    rw [ConvertYtoSegImg, assignMask]
    exact getElem?_zipWith_eq_some _ _ _ _ _ _ hcanvas hmask
  refine ⟨_, if tfArgmax probs == 1 then blackPx else whitePx, ?_, hout, ?_, ?_, ?_, ?_⟩
  · rw [ConvertYtoSegImg, assignMask, List.length_zipWith, whiteCanvas,
      List.length_replicate, maskGrid, argmaxGrid, List.length_map,
      List.length_map, hh]
    simp
  · rw [List.length_zipWith, List.length_replicate, List.length_map,
      List.length_map, hw row hrow]
    simp
  · refine getElem?_zipWith_eq_some _ _ _ _ _ _ ?_ ?_
    · rw [List.getElem?_replicate, if_pos hj]
    · rw [List.getElem?_map, List.getElem?_map, hp]
      rfl
  · constructor
    · intro hpx
      by_cases h1 : tfArgmax probs = 1
      · exact (tfArgmax_eq_one_iff probs a b ha hb).mp h1
      · exfalso
        have hf : (tfArgmax probs == 1) = false := beq_eq_false_iff_ne.mpr h1
        rw [hf] at hpx
        simp [blackPx, whitePx] at hpx
    · intro hspec
      have h1 : tfArgmax probs = 1 :=
        (tfArgmax_eq_one_iff probs a b ha hb).mpr hspec
      have ht : (tfArgmax probs == 1) = true := beq_iff_eq.mpr h1
      rw [ht]
      simp
  · by_cases h1 : (tfArgmax probs == 1) = true
    · rw [h1]
      left
      simp
    · rw [Bool.not_eq_true] at h1
      rw [h1]
      right
      simp

/-- Witness for `ConvertYtoSegImg_colors`: a 1×1 tensor with two classes
whose class-1 probability dominates, decoded to a single black pixel. -/
theorem ConvertYtoSegImg_colors_witness :
    ∃ outRow px,
      (ConvertYtoSegImg [[[ (1 : ℚ), 3 ]]] 1 1).length = 1 ∧
      (ConvertYtoSegImg [[[ (1 : ℚ), 3 ]]] 1 1)[0]? = some outRow ∧
      outRow.length = 1 ∧
      outRow[0]? = some px ∧
      (px = blackPx ↔ ((∀ y ∈ [(1 : ℚ), 3], y ≤ 3) ∧ (1 : ℚ) < 3)) ∧
      (px = blackPx ∨ px = whitePx) :=
  ConvertYtoSegImg_colors [[[ (1 : ℚ), 3 ]]] 1 1 0 0 [[(1 : ℚ), 3]]
    [(1 : ℚ), 3] 1 3 rfl (by simp) rfl rfl rfl rfl

/-- Every event of a per-file loop comes from the body applied to some file,
whose index is at least the loop's starting index. -/
lemma loopTrace_mem {body : Nat → FPath → List Ev} :
    ∀ (start : Nat) (ps : List FPath) (e : Ev), e ∈ loopTrace body start ps →
      ∃ i p, e ∈ body i p ∧ start ≤ i ∧ i < start + ps.length := by
  intro start ps
  induction ps generalizing start with
  | nil =>
    intro e he
    simp [loopTrace] at he
  | cons p ps ih =>
    intro e he
    rw [loopTrace] at he
    rcases List.mem_append.mp he with h | h
    · exact ⟨start, p, h, le_refl _, by simp⟩
    · obtain ⟨i, q, hq, hsi, hlt⟩ := ih (start + 1) e h
      refine ⟨i, q, hq, by omega, by simp at hlt ⊢; omega⟩

/-- A list all of whose entries equal `c` is sorted under `≤`. -/
lemma pairwise_le_of_all_eq (l : List Nat) (c : Nat) (h : ∀ k ∈ l, k = c) :
    List.Pairwise (fun a b : Nat => a ≤ b) l := by
  induction l with
  | nil => exact List.Pairwise.nil
  | cons a l ih =>
    refine List.Pairwise.cons ?_ (ih (fun k hk => h k (List.mem_cons_of_mem _ hk)))
    intro b hb
    rw [h a (List.mem_cons_self _ _), h b (List.mem_cons_of_mem _ hb)]

/-- When every event of the loop body for file `i` carries the index `i`, the
index sequence of the whole loop is nondecreasing: each file's events are
finished before the next file's begin. -/
lemma loopTrace_filterMap_sorted {body : Nat → FPath → List Ev}
    (hb : ∀ i p e, e ∈ body i p → evIdx? e = some i) :
    ∀ (start : Nat) (ps : List FPath),
      List.Sorted (· ≤ ·) ((loopTrace body start ps).filterMap evIdx?) := by
  intro start ps
  induction ps generalizing start with
  | nil => simp [loopTrace]
  | cons p ps ih =>
    rw [loopTrace, List.filterMap_append]
    apply List.pairwise_append.mpr
    have hall : ∀ k ∈ (body start p).filterMap evIdx?, k = start := by
      intro k hk
      obtain ⟨e, he, hke⟩ := List.mem_filterMap.mp hk
      rw [hb start p e he] at hke
      exact (Option.some.inj hke).symm
    refine ⟨pairwise_le_of_all_eq _ start hall, ih (start + 1), ?_⟩
    intro a hvx b hy
    obtain ⟨e, he, hbe⟩ := List.mem_filterMap.mp hy
    obtain ⟨i, q, hq, hsi, _⟩ := loopTrace_mem (start + 1) ps e he
    rw [hb i q e hq] at hbe
    have hbi : b = i := (Option.some.inj hbe).symm
    rw [hall a hvx, hbi]
    omega

/-- A write event of a read-write loop identifies its file: the event index
is the loop offset plus the file's position, and the written path is the
naming function applied to that file. -/
lemma loopTrace_write_eq {g : FPath → FPath} :
    ∀ (start : Nat) (ps : List FPath) (i : Nat) (path : FPath),
      Ev.writeT i path ∈
        loopTrace (fun k p => [Ev.readT k, Ev.writeT k (g p)]) start ps →
      ∃ j p, i = start + j ∧ ps[j]? = some p ∧ path = g p := by
  intro start ps
  induction ps generalizing start with
  | nil =>
    intro i path h
    simp [loopTrace] at h
  | cons p ps ih =>
    intro i path h
    rw [loopTrace] at h
    rcases List.mem_append.mp h with h | h
    · rcases List.mem_cons.mp h with h | h
      · exact Ev.noConfusion h
      · rcases List.mem_cons.mp h with h | h
        · obtain ⟨rfl, rfl⟩ := Ev.writeT.inj h
          exact ⟨0, p, by omega, List.getElem?_cons_zero, rfl⟩
        · simp at h
    · obtain ⟨j, q, hij, hq, hpath⟩ := ih (start + 1) i path h
      exact ⟨j + 1, q, by omega, by rw [List.getElem?_cons_succ]; exact hq, hpath⟩

/-- No write event occurs during `Evaluation`: its loop only reads and
infers. -/
lemma writeT_not_mem_evaluationTrace (paths : List FPath) (i : Nat)
    (path : FPath) : Ev.writeT i path ∉ evaluationTrace paths := by
  intro h
  obtain ⟨k, p, hk, _, _⟩ := loopTrace_mem 0 paths _ h
  rcases List.mem_cons.mp hk with h1 | h1
  · exact Ev.noConfusion h1
  · rcases List.mem_cons.mp h1 with h2 | h2
    · exact Ev.noConfusion h2
    · simp at h2

/-- C6 (counterexample): with two test files, the segmentation pipeline's
trace touches the second image (read + inference inside `Evaluation`) before
the first image's output is written, so its images are NOT each fully
processed before the next begins. -/
theorem runInfTrace_not_seqPerImage :
    ¬ seqPerImage
      (runInfTrace ["a.png".data, "b.png".data] "out".data) := by
  unfold seqPerImage
  decide

/-- C6 (amended): the normalization pipeline processes its images strictly
sequentially — each image is read, transformed and written before the next
begins.  The segmentation pipeline is sequential within each of its two
passes over the sorted listing: `Evaluation` reads and infers image after
image, and only after the whole evaluation pass does the write pass re-read
each image and write its output, again image after image; `RunInf`'s trace is
exactly the evaluation pass followed by the write pass. -/
theorem pipelines_sequencing :
    (∀ (trainN : Nat) (testPaths : List FPath) (outDir : FPath),
      seqPerImage (adjustTrace trainN testPaths outDir)) ∧
    (∀ testPaths : List FPath,
      seqPerImage (evaluationTrace (pySort testPaths))) ∧
    (∀ (testPaths : List FPath) (outDir : FPath),
      seqPerImage (runInfWriteTrace (pySort testPaths) outDir)) ∧
    (∀ (testPaths : List FPath) (outDir : FPath),
      runInfTrace testPaths outDir =
        evaluationTrace (pySort testPaths) ++
          runInfWriteTrace (pySort testPaths) outDir) := by
  have hbAdj : ∀ (outDir : FPath) i p e,
      e ∈ [Ev.readT i, Ev.writeT i (pngName outDir p)] → evIdx? e = some i := by
    intro outDir i p e he
    rcases List.mem_cons.mp he with rfl | he
    · rfl
    · rcases List.mem_cons.mp he with rfl | he
      · rfl
      · simp at he
  have hbEval : ∀ i (p : FPath) e,
      e ∈ [Ev.readT i, Ev.inferT i] → evIdx? e = some i := by
    intro i p e he
    rcases List.mem_cons.mp he with rfl | he
    · rfl
    · rcases List.mem_cons.mp he with rfl | he
      · rfl
      · simp at he
  have hbSeg : ∀ (outDir : FPath) i p e,
      e ∈ [Ev.readT i, Ev.writeT i (segName outDir p)] → evIdx? e = some i := by
    intro outDir i p e he
    rcases List.mem_cons.mp he with rfl | he
    · rfl
    · rcases List.mem_cons.mp he with rfl | he
      · rfl
      · simp at he
  refine ⟨?_, ?_, ?_, fun _ _ => rfl⟩
  · intro trainN testPaths outDir
    unfold seqPerImage adjustTrace
    rw [List.filterMap_append, List.filterMap_map]
    have hnil : List.filterMap (evIdx? ∘ Ev.readTrain) (List.range trainN) = [] := by
      apply List.filterMap_eq_nil_iff.mpr
      intro a _
      rfl
    rw [hnil, List.nil_append]
    exact loopTrace_filterMap_sorted (hbAdj outDir) 0 testPaths
  · intro testPaths
    unfold seqPerImage evaluationTrace
    exact loopTrace_filterMap_sorted hbEval 0 (pySort testPaths)
  · intro testPaths outDir
    unfold seqPerImage runInfWriteTrace
    exact loopTrace_filterMap_sorted (hbSeg outDir) 0 (pySort testPaths)

/-- C9: every write event of the normalization pipeline's trace writes the
`i`-th listed input to `outputDir` under the input's base filename with its
extension replaced by `.png`, and every write event of the segmentation
pipeline's trace writes the `i`-th sorted input to `outputDir` under the
input's base filename plus `_Seg.jpg`. -/
theorem pipeline_output_names (trainN : Nat) (testPaths : List FPath)
    (outDir : FPath) (i : Nat) (path : FPath) :
    (Ev.writeT i path ∈ adjustTrace trainN testPaths outDir →
      ∃ p, testPaths[i]? = some p ∧
        path = joinPathL outDir (stemL p ++ ".png".data)) ∧
    (Ev.writeT i path ∈ runInfTrace testPaths outDir →
      ∃ p, (pySort testPaths)[i]? = some p ∧
        path = joinPathL outDir (stemL p ++ "_Seg.jpg".data)) := by
  constructor
  · intro h
    unfold adjustTrace at h
    rcases List.mem_append.mp h with h | h
    · obtain ⟨j, _, hje⟩ := List.mem_map.mp h
      exact Ev.noConfusion hje
    · obtain ⟨j, p, hij, hp, hpath⟩ := loopTrace_write_eq 0 testPaths i path h
      refine ⟨p, ?_, ?_⟩
      · rw [hij, Nat.zero_add]
        exact hp
      · rw [hpath]
        rfl
  · intro h
    unfold runInfTrace runInfWriteTrace at h
    rcases List.mem_append.mp h with h | h
    · exact absurd h (writeT_not_mem_evaluationTrace _ _ _)
    · obtain ⟨j, p, hij, hp, hpath⟩ :=
        loopTrace_write_eq 0 (pySort testPaths) i path h
      refine ⟨p, ?_, ?_⟩
      · rw [hij, Nat.zero_add]
        exact hp
      · rw [hpath]
        rfl

/-- Witness for `pipeline_output_names`: input `foo.bmp`, output directory
`out`; the normalization pipeline's only write goes to `out/foo.png`. -/
theorem pipeline_output_names_witness :
    ∃ p, (["foo.bmp".data] : List FPath)[0]? = some p ∧
      "out/foo.png".data = joinPathL "out".data (stemL p ++ ".png".data) :=
  (pipeline_output_names 0 ["foo.bmp".data] "out".data 0
      "out/foo.png".data).1 (by decide)

end LSD
